import Mathlib

/-!
Shallow embedding of the topology-reconciliation core of the PVsyst report
parser (`src/pvsyst_parser.py`), together with theorems settling the frozen
claims about its specification.

Strings are modelled as `List Char`; Python regular-expression searches are
translated into explicit leftmost-match scanners over character lists
(greedy `\d+` / `[A-Za-z]*` runs are taken maximal-munch, which coincides
with Python's backtracking semantics on the patterns embedded here because
no pattern places a digit class directly after another digit class).
-/

namespace PVsyst

/-- Python `\s` on ASCII text: space, tab, newline, carriage return,
vertical tab, form feed (code points 32, 9, 10, 13, 11, 12). -/
def isSpaceC (c : Char) : Bool :=
  c.toNat = 32 || c.toNat = 9 || c.toNat = 10 || c.toNat = 13 ||
    c.toNat = 11 || c.toNat = 12

/-- Python `\d` on ASCII text: the characters `0`-`9` (code points 48-57). -/
def isDigitC (c : Char) : Bool :=
  48 ≤ c.toNat && c.toNat ≤ 57

/-- Python `[A-Za-z]` (code points 65-90 and 97-122). -/
def isAlphaC (c : Char) : Bool :=
  (65 ≤ c.toNat && c.toNat ≤ 90) || (97 ≤ c.toNat && c.toNat ≤ 122)

/-- Python `\w` (ASCII): letters, digits, underscore.  Used for `\b`. -/
def isWordC (c : Char) : Bool :=
  isAlphaC c || isDigitC c || c = '_'

/-- `str.strip()`: drop whitespace from both ends. -/
def stripChars (s : List Char) : List Char :=
  ((s.dropWhile isSpaceC).reverse.dropWhile isSpaceC).reverse

/-- `str.split(",")`: split on every comma, empty fields preserved. -/
def splitComma : List Char → List (List Char)
  | [] => [[]]
  | c :: rest =>
    if c = ',' then [] :: splitComma rest
    else
      match splitComma rest with
      | [] => [[c]]
      | p :: ps => (c :: p) :: ps

/-- `",".join(xs)`. -/
def joinComma : List (List Char) → List Char
  | [] => []
  | [x] => x
  | x :: y :: xs => x ++ ',' :: joinComma (y :: xs)

/-- Numeric value of a digit string, as computed by Python `int()`
(leading zeros allowed). -/
def digitsVal (ds : List Char) : Nat :=
  ds.foldl (fun acc c => 10 * acc + (c.toNat - 48)) 0

/-- The ASCII character of a decimal digit. -/
def digitChar (d : Nat) : Char := Char.ofNat (48 + d)

/-- Decimal digits of `n`, most significant first (fuel-driven so that the
definition is structural and evaluates by `decide`/`rfl`). -/
def natDigitsAux : Nat → Nat → List Char
  | 0, _ => []
  | fuel + 1, n =>
    if n < 10 then [digitChar n]
    else natDigitsAux fuel (n / 10) ++ [digitChar (n % 10)]

/-- Decimal representation of `n`, e.g. `natDigits 7 = "7".data`. -/
def natDigits (n : Nat) : List Char := natDigitsAux (n + 1) n

/-- Python `f"{n:02d}"`: decimal, zero-padded to width two. -/
def pad2 (n : Nat) : List Char :=
  if n < 10 then '0' :: natDigits n else natDigits n

/-- Python `f"INV{n:02d}"` — the canonical inverter id emitted by
`parse_inverter_range`. -/
def fmtInv (n : Nat) : List Char := 'I' :: 'N' :: 'V' :: pad2 n

/-- Case-insensitive literal `INV` at the head of the input
(the regexes carry `re.IGNORECASE`); returns the remainder. -/
def matchINV : List Char → Option (List Char)
  | a :: b :: c :: rest =>
    if (a = 'I' || a = 'i') && (b = 'N' || b = 'n') && (c = 'V' || c = 'v') then
      some rest
    else none
  | _ => none

/-- Regex `INV\s*(\d+)\s*-\s*(\d+)` anchored at the head of the input
(`re.IGNORECASE`): returns the two captured numbers. -/
def matchInvRangeHere (s : List Char) : Option (Nat × Nat) :=
  match matchINV s with
  | none => none
  | some r1 =>
    let r2 := r1.dropWhile isSpaceC
    let d1 := r2.takeWhile isDigitC
    let r3 := r2.dropWhile isDigitC
    if d1.isEmpty then none
    else
      match r3.dropWhile isSpaceC with
      | '-' :: r5 =>
        let d2 := (r5.dropWhile isSpaceC).takeWhile isDigitC
        if d2.isEmpty then none else some (digitsVal d1, digitsVal d2)
      | _ => none

/-- `re.search(r"INV\s*(\d+)\s*-\s*(\d+)", part, re.IGNORECASE)`:
leftmost match. -/
def searchInvRange : List Char → Option (Nat × Nat)
  | [] => none
  | c :: rest =>
    match matchInvRangeHere (c :: rest) with
    | some v => some v
    | none => searchInvRange rest

/-- Regex `INV\s*(\d+)` anchored at the head of the input (`re.IGNORECASE`). -/
def matchInvSingleHere (s : List Char) : Option Nat :=
  match matchINV s with
  | none => none
  | some r1 =>
    let d1 := (r1.dropWhile isSpaceC).takeWhile isDigitC
    if d1.isEmpty then none else some (digitsVal d1)

/-- `re.search(r"INV\s*(\d+)", part, re.IGNORECASE)`: leftmost match. -/
def searchInvSingle : List Char → Option Nat
  | [] => none
  | c :: rest =>
    match matchInvSingleHere (c :: rest) with
    | some v => some v
    | none => searchInvSingle rest

/-- `re.search(r"(\d+)", part)`: leftmost maximal digit run. -/
def searchNum : List Char → Option Nat
  | [] => none
  | c :: rest =>
    if isDigitC c then some (digitsVal ((c :: rest).takeWhile isDigitC))
    else searchNum rest

/-- One comma-separated part of the inverter notation, as handled by the
loop body of `parse_inverter_range` (src/pvsyst_parser.py lines 420-441):
a part containing `-` goes through the range regex, otherwise the single
`INV n` regex, otherwise a bare-number fallback. -/
def processPart (p : List Char) : List (List Char) :=
  if '-' ∈ p then
    match searchInvRange p with
    | some (s, e) => (List.range' s (e + 1 - s)).map fmtInv
    | none => []
  else
    match searchInvSingle p with
    | some n => [fmtInv n]
    | none =>
      match searchNum p with
      | some n => [fmtInv n]
      | none => []

/-- `PVsystParser.parse_inverter_range` (src/pvsyst_parser.py lines 402-443):
strip the input, split on commas, strip each part, and expand each part. -/
def parse_inverter_range (s : List Char) : List (List Char) :=
  (((splitComma (stripChars s)).map stripChars).map processPart).flatten

example : parse_inverter_range "INV02-05,7,8".data =
    ["INV02".data, "INV03".data, "INV04".data, "INV05".data,
     "INV07".data, "INV08".data] := by decide

example : parse_inverter_range "INV02-05, 7,8".data =
    ["INV02".data, "INV03".data, "INV04".data, "INV05".data,
     "INV07".data, "INV08".data] := by decide

example : parse_inverter_range "INV 9-11,13".data =
    ["INV09".data, "INV10".data, "INV11".data, "INV13".data] := by decide

example : parse_inverter_range "INV01".data = ["INV01".data] := by decide

/-! Arithmetic facts about the decimal formatting helpers. -/

theorem toNat_digitChar {d : Nat} (h : d < 10) : (digitChar d).toNat = 48 + d := by
  interval_cases d <;> decide

theorem isDigitC_digitChar {d : Nat} (h : d < 10) : isDigitC (digitChar d) = true := by
  interval_cases d <;> decide

theorem natDigitsAux_all_digits :
    ∀ fuel n, n < fuel → ∀ c ∈ natDigitsAux fuel n, isDigitC c = true := by
  intro fuel
  induction fuel with
  | zero => intro n h; omega
  | succ f ih =>
    intro n h c hc
    simp only [natDigitsAux] at hc
    by_cases h10 : n < 10
    · simp [h10] at hc
      subst hc
      exact isDigitC_digitChar h10
    · simp [h10, List.mem_append] at hc
      rcases hc with hc | hc
      · exact ih (n / 10) (by omega) c hc
      · subst hc
        exact isDigitC_digitChar (by omega)

theorem natDigits_all_digits {n : Nat} : ∀ c ∈ natDigits n, isDigitC c = true :=
  natDigitsAux_all_digits (n + 1) n (Nat.lt_succ_self n)

theorem digitsVal_append_last (a : List Char) (c : Char) :
    digitsVal (a ++ [c]) = 10 * digitsVal a + (c.toNat - 48) := by
  simp [digitsVal, List.foldl_append]

theorem digitsVal_natDigitsAux :
    ∀ fuel n, n < fuel → digitsVal (natDigitsAux fuel n) = n := by
  intro fuel
  induction fuel with
  | zero => intro n h; omega
  | succ f ih =>
    intro n h
    simp only [natDigitsAux]
    by_cases h10 : n < 10
    · simp [h10, digitsVal, toNat_digitChar h10]
    · rw [if_neg h10, digitsVal_append_last, ih (n / 10) (by omega),
        toNat_digitChar (show n % 10 < 10 by omega)]
      omega

theorem digitsVal_natDigits (n : Nat) : digitsVal (natDigits n) = n :=
  digitsVal_natDigitsAux (n + 1) n (Nat.lt_succ_self n)

theorem natDigitsAux_ne_nil : ∀ fuel n, n < fuel → natDigitsAux fuel n ≠ [] := by
  intro fuel
  induction fuel with
  | zero => intro n h; omega
  | succ f _ =>
    intro n _
    simp only [natDigitsAux]
    by_cases h10 : n < 10 <;> simp [h10]

theorem natDigits_ne_nil (n : Nat) : natDigits n ≠ [] :=
  natDigitsAux_ne_nil (n + 1) n (Nat.lt_succ_self n)

theorem pad2_all_digits {n : Nat} : ∀ c ∈ pad2 n, isDigitC c = true := by
  intro c hc
  unfold pad2 at hc
  split at hc
  · rcases List.mem_cons.mp hc with h | h
    · subst h; decide
    · exact natDigits_all_digits c h
  · exact natDigits_all_digits c hc

theorem pad2_ne_nil (n : Nat) : pad2 n ≠ [] := by
  unfold pad2
  split
  · simp
  · exact natDigits_ne_nil n

theorem digitsVal_pad2 (n : Nat) : digitsVal (pad2 n) = n := by
  unfold pad2
  split
  · show digitsVal ('0' :: natDigits n) = n
    have h : digitsVal ('0' :: natDigits n) = digitsVal (natDigits n) := by
      simp [digitsVal]
    rw [h, digitsVal_natDigits]
  · exact digitsVal_natDigits n

theorem natDigits_injective {m n : Nat} (h : natDigits m = natDigits n) : m = n := by
  have := digitsVal_natDigits m
  rw [h, digitsVal_natDigits] at this
  omega

/-! Character-class facts used to push tokens through `stripChars`/`splitComma`. -/

theorem char_ne_of_toNat_ne {a b : Char} (h : a.toNat ≠ b.toNat) : a ≠ b :=
  fun he => h (he ▸ rfl)

theorem isDigitC_facts {c : Char} (h : isDigitC c = true) :
    isSpaceC c = false ∧ c ≠ ',' ∧ c ≠ '-' := by
  simp only [isDigitC, Bool.and_eq_true, decide_eq_true_eq] at h
  refine ⟨?_, ?_, ?_⟩
  · simp only [isSpaceC, Bool.or_eq_false_iff, decide_eq_false_iff_not]
    omega
  · exact char_ne_of_toNat_ne (by simpa using by omega)
  · exact char_ne_of_toNat_ne (by simpa using by omega)

theorem fmtInv_chars {n : Nat} :
    ∀ c ∈ fmtInv n, isSpaceC c = false ∧ c ≠ ',' ∧ c ≠ '-' := by
  intro c hc
  simp only [fmtInv, List.mem_cons] at hc
  rcases hc with h | h | h | h
  · subst h; refine ⟨by decide, by decide, by decide⟩
  · subst h; refine ⟨by decide, by decide, by decide⟩
  · subst h; refine ⟨by decide, by decide, by decide⟩
  · exact isDigitC_facts (pad2_all_digits c h)

theorem dropWhile_eq_self_of {p : Char → Bool} {s : List Char}
    (h : ∀ c ∈ s, p c = false) : s.dropWhile p = s := by
  cases s with
  | nil => rfl
  | cons c cs => simp [List.dropWhile_cons, h c (by simp)]

theorem takeWhile_eq_self_of {p : Char → Bool} {s : List Char}
    (h : ∀ c ∈ s, p c = true) : s.takeWhile p = s := by
  induction s with
  | nil => rfl
  | cons c cs ih =>
    simp [List.takeWhile_cons, h c (by simp), ih (fun x hx => h x (by simp [hx]))]

theorem stripChars_eq_self {s : List Char} (h : ∀ c ∈ s, isSpaceC c = false) :
    stripChars s = s := by
  unfold stripChars
  rw [dropWhile_eq_self_of h,
    dropWhile_eq_self_of (fun c hc => h c (List.mem_reverse.mp hc)),
    List.reverse_reverse]

theorem splitComma_no_comma {s : List Char} (h : ∀ c ∈ s, c ≠ ',') :
    splitComma s = [s] := by
  induction s with
  | nil => rfl
  | cons c cs ih =>
    simp only [splitComma]
    rw [if_neg (by exact h c (by simp)), ih (fun x hx => h x (by simp [hx]))]

theorem splitComma_append_comma {x r : List Char} (h : ∀ c ∈ x, c ≠ ',') :
    splitComma (x ++ ',' :: r) = x :: splitComma r := by
  induction x with
  | nil => simp [splitComma]
  | cons c cs ih =>
    simp only [List.cons_append, splitComma, List.append_eq]
    rw [if_neg (by exact h c (by simp)), ih (fun a ha => h a (by simp [ha]))]

theorem splitComma_joinComma :
    ∀ ts : List (List Char), (∀ t ∈ ts, ∀ c ∈ t, c ≠ ',') → ts ≠ [] →
      splitComma (joinComma ts) = ts
  | [], _, hne => absurd rfl hne
  | [x], h, _ => by
      simpa [joinComma] using splitComma_no_comma (h x (by simp))
  | x :: y :: tl, h, _ => by
      simp only [joinComma]
      rw [splitComma_append_comma (h x (by simp)),
        splitComma_joinComma (y :: tl) (fun t ht => h t (by simp [ht])) (by simp)]

theorem mem_joinComma {c : Char} :
    ∀ ts : List (List Char), c ∈ joinComma ts → c = ',' ∨ ∃ t ∈ ts, c ∈ t
  | [], h => by simp [joinComma] at h
  | [x], h => by
      right; exact ⟨x, by simp, by simpa [joinComma] using h⟩
  | x :: y :: tl, h => by
      simp only [joinComma, List.mem_append, List.mem_cons] at h
      rcases h with h | h | h
      · right; exact ⟨x, by simp, h⟩
      · left; exact h
      · rcases mem_joinComma (y :: tl) h with h' | ⟨t, ht, hc⟩
        · left; exact h'
        · right; exact ⟨t, by simp [List.mem_cons.mp ht], hc⟩

/-! `processPart` fixes the canonical ids it emits. -/

theorem processPart_fmtInv (n : Nat) : processPart (fmtInv n) = [fmtInv n] := by
  have hmem : '-' ∉ fmtInv n := fun h => (fmtInv_chars '-' h).2.2 rfl
  have hINV : matchINV ('I' :: 'N' :: 'V' :: pad2 n) = some (pad2 n) := by
    simp [matchINV]
  have hdrop : List.dropWhile isSpaceC (pad2 n) = pad2 n :=
    dropWhile_eq_self_of (fun c hc => (isDigitC_facts (pad2_all_digits c hc)).1)
  have htake : List.takeWhile isDigitC (pad2 n) = pad2 n :=
    takeWhile_eq_self_of (fun c hc => pad2_all_digits c hc)
  have hne : (pad2 n).isEmpty = false := by
    cases hp : pad2 n with
    | nil => exact absurd hp (pad2_ne_nil n)
    | cons d ds => rfl
  have hhere : matchInvSingleHere ('I' :: 'N' :: 'V' :: pad2 n) = some n := by
    simp only [matchInvSingleHere, hINV, hdrop, htake, hne]
    simp [digitsVal_pad2]
  have hsingle : searchInvSingle (fmtInv n) = some n := by
    show searchInvSingle ('I' :: 'N' :: 'V' :: pad2 n) = some n
    simp only [searchInvSingle, hhere]
  simp [processPart, hmem, hsingle]

theorem processPart_shape (p : List Char) :
    ∃ ns : List Nat, processPart p = ns.map fmtInv := by
  unfold processPart
  split
  · cases h : searchInvRange p with
    | none => exact ⟨[], rfl⟩
    | some v => exact ⟨List.range' v.1 (v.2 + 1 - v.1), by simp⟩
  · cases h1 : searchInvSingle p with
    | some n => exact ⟨[n], rfl⟩
    | none =>
      cases h2 : searchNum p with
      | some n => exact ⟨[n], rfl⟩
      | none => exact ⟨[], rfl⟩

theorem flatten_shape :
    ∀ xs : List (List (List Char)),
      (∀ x ∈ xs, ∃ ns : List Nat, x = ns.map fmtInv) →
      ∃ ns : List Nat, xs.flatten = ns.map fmtInv := by
  intro xs
  induction xs with
  | nil => exact fun _ => ⟨[], rfl⟩
  | cons x tl ih =>
    intro h
    obtain ⟨ns1, h1⟩ := h x (by simp)
    obtain ⟨ns2, h2⟩ := ih (fun y hy => h y (by simp [hy]))
    exact ⟨ns1 ++ ns2, by simp [h1, h2]⟩

theorem parse_inverter_range_shape (s : List Char) :
    ∃ ns : List Nat, parse_inverter_range s = ns.map fmtInv := by
  unfold parse_inverter_range
  refine flatten_shape _ ?_
  intro x hx
  simp only [List.mem_map] at hx
  obtain ⟨p, _, hp⟩ := hx
  exact hp ▸ processPart_shape p

theorem flatten_map_singleton {α β : Type} (l : List α) (f : α → β) :
    (l.map (fun x => [f x])).flatten = l.map f := by
  induction l with
  | nil => rfl
  | cons x tl ih => simp [ih]

theorem parse_inverter_range_of_fmtInv (ns : List Nat) :
    parse_inverter_range (joinComma (ns.map fmtInv)) = ns.map fmtInv := by
  cases ns with
  | nil => decide
  | cons n tl =>
    have tokens_no_comma : ∀ t ∈ (n :: tl).map fmtInv, ∀ c ∈ t, c ≠ ',' := by
      intro t ht c hc
      obtain ⟨m, _, hm⟩ := List.mem_map.mp ht
      exact (fmtInv_chars c (hm ▸ hc)).2.1
    have join_no_space : ∀ c ∈ joinComma ((n :: tl).map fmtInv), isSpaceC c = false := by
      intro c hc
      rcases mem_joinComma _ hc with h | ⟨t, ht, hct⟩
      · subst h; decide
      · obtain ⟨m, _, hm⟩ := List.mem_map.mp ht
        exact (fmtInv_chars c (hm ▸ hct)).1
    unfold parse_inverter_range
    rw [stripChars_eq_self join_no_space,
      splitComma_joinComma _ tokens_no_comma (by simp)]
    have strip_tokens : ∀ ms : List Nat,
        (ms.map fmtInv).map stripChars = ms.map fmtInv := by
      intro ms
      induction ms with
      | nil => rfl
      | cons m tl2 ih2 =>
        simp only [List.map_cons, ih2]
        rw [stripChars_eq_self (fun c hc => (fmtInv_chars c hc).1)]
    rw [strip_tokens, List.map_map]
    have hfun : processPart ∘ fmtInv = fun m => [fmtInv m] := by
      funext m
      exact processPart_fmtInv m
    rw [hfun, flatten_map_singleton]

theorem parse_inverter_range_idem (s : List Char) :
    parse_inverter_range (joinComma (parse_inverter_range s)) =
      parse_inverter_range s := by
  obtain ⟨ns, hns⟩ := parse_inverter_range_shape s
  rw [hns, parse_inverter_range_of_fmtInv]

/-! Generic leftmost-match scanner, and literal matchers. -/

/-- Leftmost match of an anchored matcher `m`, as `re.search` does: try every
start position from the left. -/
def scanFor {α : Type} (m : List Char → Option α) : List Char → Option α
  | [] => m []
  | c :: rest =>
    match m (c :: rest) with
    | some v => some v
    | none => scanFor m rest

/-- Case-insensitive literal at the head of the input (the pattern is given
in lowercase); returns the remainder. -/
def eatCI : List Char → List Char → Option (List Char)
  | [], s => some s
  | _ :: _, [] => none
  | p :: ps, c :: cs => if c.toLower = p then eatCI ps cs else none

/-- Case-sensitive literal at the head of the input; returns the remainder. -/
def eatExact : List Char → List Char → Option (List Char)
  | [], s => some s
  | _ :: _, [] => none
  | p :: ps, c :: cs => if c = p then eatExact ps cs else none

/-- Whether the literal `pat` occurs anywhere in the input (case-sensitive). -/
def containsSub (pat s : List Char) : Bool :=
  (scanFor (eatExact pat) s).isSome

/-- The negative lookahead `(?!\s*(Modules|Module|String|Mod))` of the header
inverter regex, under `re.IGNORECASE`: blocked when, after optional
whitespace, the text starts with one of the four alternatives. -/
def lookaheadBlocked (s : List Char) : Bool :=
  let t := s.dropWhile isSpaceC
  (eatCI "modules".data t).isSome || (eatCI "module".data t).isSome ||
    (eatCI "string".data t).isSome || (eatCI "mod".data t).isSome

/-- Regex `INV\s*([A-Za-z]*)(\d+)(?:\s*-\s*([A-Za-z]*)(\d+)\b(?!\s*(Modules|Module|String|Mod)))?`
(src/pvsyst_parser.py lines 1178-1183, `re.IGNORECASE`) anchored at the head
of the input.  Returns the first alphabetic group, the first number,
and the end number of the optional range group when that group matches.
The `\b` after the optional group's digits is checked only after the maximal
digit run: giving digits back leaves a digit-digit position, where `\b` can
never hold, so maximal munch agrees with the regex.  The group-3 captured
letters are skipped: `_parse_array_block` never uses `prefix2` (it formats
ids with `prefix1` only). -/
def matchHeaderInvHere (s : List Char) : Option (List Char × Nat × Option Nat) :=
  match matchINV s with
  | none => none
  | some r0 =>
    let r1 := r0.dropWhile isSpaceC
    let alpha1 := r1.takeWhile isAlphaC
    let r2 := r1.dropWhile isAlphaC
    let d1 := r2.takeWhile isDigitC
    let r3 := r2.dropWhile isDigitC
    if d1.isEmpty then none
    else
      let opt : Option Nat :=
        match r3.dropWhile isSpaceC with
        | '-' :: r4 =>
          let r5 := (r4.dropWhile isSpaceC).dropWhile isAlphaC
          let d2 := r5.takeWhile isDigitC
          let r6 := r5.dropWhile isDigitC
          if d2.isEmpty then none
          else if (match r6 with | [] => false | c :: _ => isWordC c) then none
          else if lookaheadBlocked r6 then none
          else some (digitsVal d2)
        | _ => none
      some (alpha1, digitsVal d1, opt)

/-- `re.search` of the header inverter regex: leftmost match. -/
def searchHeaderInv : List Char → Option (List Char × Nat × Option Nat)
  | [] => none
  | c :: rest =>
    match matchHeaderInvHere (c :: rest) with
    | some v => some v
    | none => searchHeaderInv rest

/-- Inverter ids extracted from an array block's header line by
`_parse_array_block` (src/pvsyst_parser.py lines 1176-1198):
`f"INV{prefix1}{i:02d}"` for `i` in `range(start_n, end_n + 1)`,
where `end_n` defaults to `start_n` when the optional range group is absent. -/
def headerInverterIds (header : List Char) : List (List Char) :=
  match searchHeaderInv header with
  | none => []
  | some (alpha1, s, oe) =>
    let e := oe.getD s
    (List.range' s (e + 1 - s)).map (fun i => 'I' :: 'N' :: 'V' :: (alpha1 ++ pad2 i))

example : headerInverterIds "Array #1 - INV R1 - 201deg - 17/String".data =
    ["INVR01".data] := by decide

example : headerInverterIds "Array #2 - INV06-07 MPPT 1-5".data =
    ["INV06".data, "INV07".data] := by decide

/-- Regex `Modules\s+\d+\s+string` (src/pvsyst_parser.py line 922,
`re.IGNORECASE`) anchored at the head of the input — the gate that decides
whether a candidate `Array #n` block is kept. -/
def matchModulesGuardHere (s : List Char) : Option Unit :=
  match eatCI "modules".data s with
  | none => none
  | some r0 =>
    let sp1 := r0.takeWhile isSpaceC
    let r1 := r0.dropWhile isSpaceC
    let d := r1.takeWhile isDigitC
    let r2 := r1.dropWhile isDigitC
    let sp2 := r2.takeWhile isSpaceC
    let r3 := r2.dropWhile isSpaceC
    if !sp1.isEmpty && !d.isEmpty && !sp2.isEmpty && (eatCI "string".data r3).isSome
    then some () else none

/-- Whether a block's text matches the keep-gate regex anywhere. -/
def hasModulesGuard (s : List Char) : Bool :=
  (scanFor matchModulesGuardHere s).isSome

/-- Regex `Modules\s*(\d+)\s*string[s]?\s*x\s*(\d+)` (src/pvsyst_parser.py
lines 1260-1264, `re.IGNORECASE`) anchored at the head of the input — the
full modules-configuration line that sets `strings`/`modules_in_series`.
The optional `[s]?` is taken greedily, which agrees with the regex: when the
character after `string` is an `s`, the not-taken branch would need `\s*x`
to match starting at that `s`, which is impossible. -/
def matchModulesCfgHere (s : List Char) : Option (Nat × Nat) :=
  match eatCI "modules".data s with
  | none => none
  | some r0 =>
    let r1 := r0.dropWhile isSpaceC
    let d1 := r1.takeWhile isDigitC
    let r2 := r1.dropWhile isDigitC
    if d1.isEmpty then none
    else
      match eatCI "string".data (r2.dropWhile isSpaceC) with
      | none => none
      | some r3 =>
        let r4 := match r3 with
                  | c :: t => if c.toLower = 's' then t else c :: t
                  | [] => []
        match r4.dropWhile isSpaceC with
        | c :: r5 =>
          if c.toLower = 'x' then
            let d2 := (r5.dropWhile isSpaceC).takeWhile isDigitC
            if d2.isEmpty then none else some (digitsVal d1, digitsVal d2)
          else none
        | [] => none

/-- Leftmost match of the full modules-configuration regex. -/
def searchModulesCfg (s : List Char) : Option (Nat × Nat) :=
  scanFor matchModulesCfgHere s

example : searchModulesCfg "Modules 5 string x 18 In series".data = some (5, 18) := by
  decide

example : hasModulesGuard "Modules 5 string x 18 In series".data = true := by decide

example : hasModulesGuard "Modules 4 string".data = true := by decide

example : searchModulesCfg "Modules 4 string".data = none := by decide

/-- Regex `Nb\.\s*of\s*modules\s*(\d+)units?` (src/pvsyst_parser.py line 1553,
case-sensitive) anchored at the head of the input — the plant-wide module
count; the trailing `s?` consumes nothing that affects the capture. -/
def matchNbModulesHere (s : List Char) : Option Nat :=
  match eatExact "Nb.".data s with
  | none => none
  | some r0 =>
    match eatExact "of".data (r0.dropWhile isSpaceC) with
    | none => none
    | some r1 =>
      match eatExact "modules".data (r1.dropWhile isSpaceC) with
      | none => none
      | some r2 =>
        let r3 := r2.dropWhile isSpaceC
        let d := r3.takeWhile isDigitC
        let r4 := r3.dropWhile isDigitC
        if d.isEmpty then none
        else
          match eatExact "unit".data r4 with
          | none => none
          | some _ => some (digitsVal d)

/-- Leftmost match of the plant-wide module-count regex. -/
def searchNbModules (s : List Char) : Option Nat :=
  scanFor matchNbModulesHere s

/-- Regex `Number of PV modules\s*(\d+)units?` (src/pvsyst_parser.py
lines 1234-1238, `re.IGNORECASE`) anchored at the head of the input —
the per-array module count. -/
def matchNumPVModulesHere (s : List Char) : Option Nat :=
  match eatCI "number of pv modules".data s with
  | none => none
  | some r0 =>
    let r1 := r0.dropWhile isSpaceC
    let d := r1.takeWhile isDigitC
    let r2 := r1.dropWhile isDigitC
    if d.isEmpty then none
    else
      match eatCI "unit".data r2 with
      | none => none
      | some _ => some (digitsVal d)

/-- Leftmost match of the per-array module-count regex. -/
def searchNumPVModules (s : List Char) : Option Nat :=
  scanFor matchNumPVModulesHere s

example : searchNbModules "Nb. of modules 1530units".data = some 1530 := by decide

example : searchNumPVModules "Number of PV modules 90units".data = some 90 := by decide

/-! The expanded endpoints and the final per-inverter MPPT reassignment
(src/pvsyst_parser.py lines 1064-1073). -/

/-- One expanded (array, inverter, MPPT) endpoint, as found in
`self.expanded_arrays`: `array_id` is the digit string captured from the
`Array #n` marker, `mppt` is `None` or a label such as `MPPT 3`. -/
structure Combo where
  array_id : List Char
  inverter : List Char
  mppt : Option (List Char)
deriving DecidableEq, Repr

/-- Python string comparison: strict lexicographic order on code points. -/
def strLtB : List Char → List Char → Bool
  | [], [] => false
  | [], _ :: _ => true
  | _ :: _, [] => false
  | a :: as, b :: bs =>
    if a.toNat < b.toNat then true
    else if b.toNat < a.toNat then false
    else strLtB as bs

/-- The sort key `(int(x["array_id"]), x["mppt"] or "")` of the reassignment
loop, as a strict comparison (Python tuple order). -/
def keyLt (x y : Combo) : Bool :=
  if digitsVal x.array_id < digitsVal y.array_id then true
  else if digitsVal y.array_id < digitsVal x.array_id then false
  else strLtB (x.mppt.getD []) (y.mppt.getD [])

/-- Stable insertion: `x` goes before the first element that is not
strictly below it, so earlier list elements stay before key-equal later
ones — the stability guarantee of Python's `list.sort`. -/
def insertCombo (x : Combo) : List Combo → List Combo
  | [] => [x]
  | y :: ys => if keyLt y x then y :: insertCombo x ys else x :: y :: ys

/-- Stable sort by `keyLt` — `combos.sort(key=...)` of the reassignment loop. -/
def sortCombos : List Combo → List Combo
  | [] => []
  | x :: xs => insertCombo x (sortCombos xs)

/-- `defaultdict(list)` grouping: append `c` to its inverter's group,
creating the group at the end on first appearance. -/
def addToGroups (c : Combo) :
    List (List Char × List Combo) → List (List Char × List Combo)
  | [] => [(c.inverter, [c])]
  | (k, g) :: rest =>
    if k = c.inverter then (k, g ++ [c]) :: rest
    else (k, g) :: addToGroups c rest

/-- Left fold of `addToGroups` over the endpoint list. -/
def groupByInvAux : List Combo → List (List Char × List Combo) →
    List (List Char × List Combo)
  | [], acc => acc
  | c :: cs, acc => groupByInvAux cs (addToGroups c acc)

/-- `by_inverter` (src/pvsyst_parser.py lines 1065-1067): endpoints grouped by
inverter, groups in first-appearance order, each group in discovery order. -/
def groupByInv (combos : List Combo) : List (List Char × List Combo) :=
  groupByInvAux combos []

/-- Python `f"MPPT {i}"`. -/
def mkLabel (i : Nat) : List Char :=
  'M' :: 'P' :: 'P' :: 'T' :: ' ' :: natDigits i

/-- The `mppt_idx` loop of the reassignment: overwrite every endpoint's
label with `MPPT i`, `i` counting up from the given start. -/
def assignLabels : Nat → List Combo → List Combo
  | _, [] => []
  | i, c :: cs => { c with mppt := some (mkLabel i) } :: assignLabels (i + 1) cs

/-- One inverter group after the reassignment loop body: sorted by
`(int(array_id), mppt or "")`, then labelled `MPPT 1..k`. -/
def relabelGroup (g : List Combo) : List Combo :=
  assignLabels 1 (sortCombos g)

/-- The whole reassignment step (src/pvsyst_parser.py lines 1064-1073):
every inverter's endpoints are relabelled in place. -/
def reassignMppts (combos : List Combo) : List (List Char × List Combo) :=
  (groupByInv combos).map (fun p => (p.1, relabelGroup p.2))

/-- Python `d[k] = v` on an (insertion-ordered) dict: replace in place if the
key exists, else append. -/
def insertAssoc {α : Type} (k : List Char) (v : α) :
    List (List Char × α) → List (List Char × α)
  | [] => [(k, v)]
  | (k0, v0) :: rest =>
    if k0 = k then (k0, v) :: rest else (k0, v0) :: insertAssoc k v rest

/-- Dict lookup. -/
def lookupAssoc {α : Type} (k : List Char) :
    List (List Char × α) → Option α
  | [] => none
  | (k0, v0) :: rest => if k0 = k then some v0 else lookupAssoc k rest

/-- Left fold of the association-building loop over one inverter's
endpoints. -/
def buildAssocAux : List Combo → List (List Char × List Char) →
    List (List Char × List Char)
  | [], acc => acc
  | c :: cs, acc => buildAssocAux cs (insertAssoc (c.mppt.getD []) c.array_id acc)

/-- The per-inverter slice of `associations` (src/pvsyst_parser.py lines
2150-2162): for each endpoint in order, `associations[inv][mppt] = {...}`,
here recorded as MPPT label ↦ array id. -/
def buildAssoc (g : List Combo) : List (List Char × List Char) :=
  buildAssocAux g []

/-! Order lemmas for the reassignment sort key. -/

theorem strLtB_cons (x y : Char) (xs ys : List Char) :
    strLtB (x :: xs) (y :: ys) =
      (decide (x.toNat < y.toNat) ||
        (decide (x.toNat = y.toNat) && strLtB xs ys)) := by
  simp only [strLtB]
  by_cases h1 : x.toNat < y.toNat
  · simp [h1]
  · by_cases h2 : y.toNat < x.toNat
    · simp [h1, h2]
      omega
    · have he : x.toNat = y.toNat := by omega
      simp [h1, h2, he]

theorem strLtB_asymm : ∀ a b : List Char, strLtB a b = true → strLtB b a = false
  | [], [] => by simp [strLtB]
  | [], _ :: _ => by simp [strLtB]
  | _ :: _, [] => by simp [strLtB]
  | x :: xs, y :: ys => by
    intro h
    rw [strLtB_cons] at h ⊢
    simp only [Bool.or_eq_true, Bool.and_eq_true, decide_eq_true_eq] at h
    rcases h with h | ⟨he, hrec⟩
    · have h1 : ¬ y.toNat < x.toNat := by omega
      have h2 : ¬ y.toNat = x.toNat := by omega
      simp [h1, h2]
    · have h1 : ¬ y.toNat < x.toNat := by omega
      have h2 : strLtB ys xs = false := strLtB_asymm xs ys hrec
      simp [h1, h2]

theorem strLtB_negtrans : ∀ a b c : List Char,
    strLtB b a = false → strLtB c b = false → strLtB c a = false
  | [], _, c => fun _ _ => by cases c <;> simp [strLtB]
  | _ :: _, [], _ => fun hba _ => by simp [strLtB] at hba
  | _ :: _, _ :: _, [] => fun _ hcb => by simp [strLtB] at hcb
  | x :: xs, y :: ys, z :: zs => by
    intro hba hcb
    rw [strLtB_cons] at hba hcb ⊢
    simp only [Bool.or_eq_false_iff, Bool.and_eq_false_iff,
      decide_eq_false_iff_not] at hba hcb
    obtain ⟨hba1, hba2⟩ := hba
    obtain ⟨hcb1, hcb2⟩ := hcb
    simp only [Bool.or_eq_false_iff, Bool.and_eq_false_iff,
      decide_eq_false_iff_not]
    refine ⟨by omega, ?_⟩
    by_cases hzx : z.toNat = x.toNat
    · right
      have hyx : y.toNat = x.toNat := by omega
      have hzy : z.toNat = y.toNat := by omega
      have r1 : strLtB ys xs = false := by
        rcases hba2 with h | h
        · exact absurd hyx h
        · exact h
      have r2 : strLtB zs ys = false := by
        rcases hcb2 with h | h
        · exact absurd hzy h
        · exact h
      exact strLtB_negtrans xs ys zs r1 r2
    · exact Or.inl hzx

theorem keyLt_eq (x y : Combo) :
    keyLt x y =
      (decide (digitsVal x.array_id < digitsVal y.array_id) ||
        (decide (digitsVal x.array_id = digitsVal y.array_id) &&
          strLtB (x.mppt.getD []) (y.mppt.getD []))) := by
  simp only [keyLt]
  by_cases h1 : digitsVal x.array_id < digitsVal y.array_id
  · simp [h1]
  · by_cases h2 : digitsVal y.array_id < digitsVal x.array_id
    · simp [h1, h2]
      omega
    · have he : digitsVal x.array_id = digitsVal y.array_id := by omega
      simp [h1, h2, he]

theorem keyLt_asymm {x y : Combo} (h : keyLt x y = true) : keyLt y x = false := by
  rw [keyLt_eq] at h ⊢
  simp only [Bool.or_eq_true, Bool.and_eq_true, decide_eq_true_eq] at h
  rcases h with h | ⟨he, hrec⟩
  · have h1 : ¬ digitsVal y.array_id < digitsVal x.array_id := by omega
    have h2 : ¬ digitsVal y.array_id = digitsVal x.array_id := by omega
    simp [h1, h2]
  · have h1 : ¬ digitsVal y.array_id < digitsVal x.array_id := by omega
    have h2 : strLtB (y.mppt.getD []) (x.mppt.getD []) = false :=
      strLtB_asymm _ _ hrec
    simp [h1, h2]

theorem keyLt_negtrans {x y z : Combo}
    (h1 : keyLt y x = false) (h2 : keyLt z y = false) : keyLt z x = false := by
  rw [keyLt_eq] at h1 h2 ⊢
  simp only [Bool.or_eq_false_iff, Bool.and_eq_false_iff,
    decide_eq_false_iff_not] at h1 h2 ⊢
  obtain ⟨h1a, h1b⟩ := h1
  obtain ⟨h2a, h2b⟩ := h2
  refine ⟨by omega, ?_⟩
  by_cases hzx : digitsVal z.array_id = digitsVal x.array_id
  · right
    have hyx : digitsVal y.array_id = digitsVal x.array_id := by omega
    have hzy : digitsVal z.array_id = digitsVal y.array_id := by omega
    have r1 : strLtB (y.mppt.getD []) (x.mppt.getD []) = false := by
      rcases h1b with h | h
      · exact absurd hyx h
      · exact h
    have r2 : strLtB (z.mppt.getD []) (y.mppt.getD []) = false := by
      rcases h2b with h | h
      · exact absurd hzy h
      · exact h
    exact strLtB_negtrans _ _ _ r1 r2
  · exact Or.inl hzx

/-! Structural lemmas for the reassignment. -/

theorem insertCombo_perm (x : Combo) (l : List Combo) :
    (insertCombo x l).Perm (x :: l) := by
  induction l with
  | nil => simp [insertCombo]
  | cons y ys ih =>
    simp only [insertCombo]
    by_cases hk : keyLt y x = true
    · rw [if_pos hk]
      exact (ih.cons y).trans (List.Perm.swap x y ys)
    · rw [if_neg hk]

theorem mem_insertCombo {z x : Combo} {l : List Combo}
    (h : z ∈ insertCombo x l) : z = x ∨ z ∈ l := by
  have := (insertCombo_perm x l).mem_iff.mp h
  simpa using this

theorem sortCombos_perm (l : List Combo) : (sortCombos l).Perm l := by
  induction l with
  | nil => rfl
  | cons x xs ih => exact (insertCombo_perm x (sortCombos xs)).trans (ih.cons x)

theorem sortCombos_length (l : List Combo) : (sortCombos l).length = l.length :=
  (sortCombos_perm l).length_eq

theorem insertCombo_pairwise {x : Combo} {l : List Combo}
    (hl : l.Pairwise (fun a b => keyLt b a = false)) :
    (insertCombo x l).Pairwise (fun a b => keyLt b a = false) := by
  induction l with
  | nil => simp [insertCombo]
  | cons y ys ih =>
    rcases List.pairwise_cons.mp hl with ⟨hy, hys⟩
    simp only [insertCombo]
    by_cases hk : keyLt y x = true
    · rw [if_pos hk]
      refine List.pairwise_cons.mpr ⟨?_, ih hys⟩
      intro z hz
      rcases mem_insertCombo hz with rfl | hzys
      · exact keyLt_asymm hk
      · exact hy z hzys
    · rw [if_neg hk]
      refine List.pairwise_cons.mpr ⟨?_, hl⟩
      intro z hz
      rcases List.mem_cons.mp hz with rfl | hzys
      · exact Bool.eq_false_iff.mpr hk
      · exact keyLt_negtrans (Bool.eq_false_iff.mpr hk ▸ rfl) (hy z hzys)

theorem sortCombos_pairwise (l : List Combo) :
    (sortCombos l).Pairwise (fun a b => keyLt b a = false) := by
  induction l with
  | nil => simp [sortCombos]
  | cons x xs ih => exact insertCombo_pairwise ih

theorem assignLabels_map_mppt :
    ∀ (i : Nat) (l : List Combo),
      (assignLabels i l).map (fun c => c.mppt) =
        (List.range' i l.length).map (fun j => some (mkLabel j)) := by
  intro i l
  induction l generalizing i with
  | nil => rfl
  | cons c cs ih => simp [assignLabels, List.range', ih]

theorem assignLabels_map_ids :
    ∀ (i : Nat) (l : List Combo),
      (assignLabels i l).map (fun c => (c.array_id, c.inverter)) =
        l.map (fun c => (c.array_id, c.inverter)) := by
  intro i l
  induction l generalizing i with
  | nil => rfl
  | cons c cs ih => simp [assignLabels, ih]

theorem assignLabels_length (i : Nat) (l : List Combo) :
    (assignLabels i l).length = l.length := by
  induction l generalizing i with
  | nil => rfl
  | cons c cs ih => simp [assignLabels, ih]

theorem relabelGroup_map_mppt (g : List Combo) :
    (relabelGroup g).map (fun c => c.mppt) =
      (List.range' 1 g.length).map (fun j => some (mkLabel j)) := by
  unfold relabelGroup
  rw [assignLabels_map_mppt, sortCombos_length]

theorem relabelGroup_length (g : List Combo) :
    (relabelGroup g).length = g.length := by
  unfold relabelGroup
  rw [assignLabels_length, sortCombos_length]

theorem mkLabel_injective : Function.Injective mkLabel := by
  intro i j h
  simp only [mkLabel, List.cons.injEq, true_and] at h
  exact natDigits_injective h

theorem label_list_nodup (i k : Nat) :
    ((List.range' i k).map (fun j => some (mkLabel j))).Nodup := by
  refine List.Nodup.map ?_ (List.nodup_range' i k)
  intro a b hab
  simp only [Option.some.injEq] at hab
  exact mkLabel_injective hab

example : reassignMppts
    [⟨"2".data, "INV01".data, some "MPPT 3".data⟩,
     ⟨"1".data, "INV01".data, none⟩,
     ⟨"1".data, "INV02".data, some "MPPT 10".data⟩,
     ⟨"1".data, "INV02".data, some "MPPT 2".data⟩,
     ⟨"2".data, "INV01".data, some "MPPT 1".data⟩] =
    [("INV01".data,
      [⟨"1".data, "INV01".data, some "MPPT 1".data⟩,
       ⟨"2".data, "INV01".data, some "MPPT 2".data⟩,
       ⟨"2".data, "INV01".data, some "MPPT 3".data⟩]),
     ("INV02".data,
      [⟨"1".data, "INV02".data, some "MPPT 1".data⟩,
       ⟨"1".data, "INV02".data, some "MPPT 2".data⟩])] := by decide

/-! Association-building lemmas. -/

theorem insertAssoc_fresh {α : Type} (k : List Char) (v : α)
    (acc : List (List Char × α)) (h : k ∉ acc.map Prod.fst) :
    insertAssoc k v acc = acc ++ [(k, v)] := by
  induction acc with
  | nil => rfl
  | cons p rest ih =>
    obtain ⟨k0, v0⟩ := p
    simp only [List.map_cons, List.mem_cons] at h
    push_neg at h
    simp only [insertAssoc]
    rw [if_neg (fun he => h.1 he.symm), ih h.2]
    rfl

theorem buildAssocAux_nodup_keys :
    ∀ (g : List Combo) (acc : List (List Char × List Char)),
      (acc.map Prod.fst ++ g.map (fun c => c.mppt.getD [])).Nodup →
      buildAssocAux g acc =
        acc ++ g.map (fun c => (c.mppt.getD [], c.array_id)) := by
  intro g
  induction g with
  | nil => intro acc _; simp [buildAssocAux]
  | cons c cs ih =>
    intro acc h
    have hdisj := (List.nodup_append.mp h).2.2
    have hk : (c.mppt.getD []) ∉ acc.map Prod.fst := by
      intro hmem
      exact hdisj hmem (by simp)
    simp only [buildAssocAux]
    rw [insertAssoc_fresh _ _ _ hk]
    have hnodup2 : ((acc ++ [(c.mppt.getD [], c.array_id)]).map Prod.fst ++
        cs.map (fun c => c.mppt.getD [])).Nodup := by
      simp only [List.map_append, List.map_cons, List.map_nil,
        List.append_assoc, List.singleton_append]
      simpa using h
    rw [ih _ hnodup2]
    simp

/-! The string/module allocation of one array over its unique endpoints
(`to_dict`, src/pvsyst_parser.py lines 2096-2148). -/

/-- An (inverter, MPPT label) endpoint key. -/
abbrev Endpoint := List Char × List Char

/-- The loop `for idx, (inv, mppt) in enumerate(unique_mppts)`
(src/pvsyst_parser.py lines 2134-2148): each endpoint receives
`base + (1 if idx < remainder else 0)` strings and that many times
`modules_in_series` modules. -/
def enumAlloc (base remainder series : Nat) :
    Nat → List Endpoint → List (Endpoint × Nat × Nat)
  | _, [] => []
  | idx, e :: es =>
    (e, base + (if idx < remainder then 1 else 0),
      (base + (if idx < remainder then 1 else 0)) * series) ::
      enumAlloc base remainder series (idx + 1) es

/-- Per-MPPT string/module allocation for one array (src/pvsyst_parser.py
lines 2105-2148).  `eps` stands for `unique_mppts = sorted(set(pairs))`, the
sorted deduplicated endpoint list; `base = strings // n_mppts` and
`remainder = strings % n_mppts` when `n_mppts > 0`; the `dc_kwp` field is a
float derived from these counts and is not needed by the claims. -/
def mpptAllocation (eps : List Endpoint) (strings series : Nat) :
    List (Endpoint × Nat × Nat) :=
  if 0 < eps.length then
    enumAlloc (strings / eps.length) (strings % eps.length) series 0 eps
  else []

theorem enumAlloc_map_strings (base remainder series : Nat) :
    ∀ (idx : Nat) (es : List Endpoint),
      (enumAlloc base remainder series idx es).map (fun x => x.2.1) =
        (List.range' idx es.length).map
          (fun j => base + if j < remainder then 1 else 0) := by
  intro idx es
  induction es generalizing idx with
  | nil => rfl
  | cons e es ih => simp [enumAlloc, List.range', ih]

theorem sum_base_extra (base remainder : Nat) :
    ∀ (n s : Nat),
      (((List.range' s n).map
          (fun j => base + if j < remainder then 1 else 0)).sum =
        n * base + (min remainder (s + n) - min remainder s)) := by
  intro n
  induction n with
  | zero => intro s; simp
  | succ m ih =>
    intro s
    simp only [List.range', List.map_cons, List.sum_cons, ih (s + 1), Nat.succ_mul]
    by_cases hs : s < remainder
    · rw [if_pos hs]
      omega
    · rw [if_neg hs]
      omega

/-! Orientation extraction (src/pvsyst_parser.py lines 297-400). -/

/-- One `Orientation #n` regex match: captured id digits and match offset. -/
structure OriMatch where
  id : List Char
  pos : Nat
deriving DecidableEq, Repr

/-- One `Tilt/Azimuth a / b°` regex match: offset and the two values
(decimal report values, modelled as rationals). -/
structure TiltMatch where
  pos : Nat
  tilt : ℚ
  az : ℚ
deriving DecidableEq, Repr

/-- `pvsyst_azimuth_to_compass` (src/pvsyst_parser.py lines 288-294):
`(180.0 + az) % 360.0`, Python float modulo taking the divisor's sign. -/
def pvsyst_azimuth_to_compass (az : ℚ) : ℚ :=
  (180 + az) - 360 * ⌊(180 + az) / 360⌋

/-- The stored orientation record (tilt, PVsyst azimuth, compass azimuth;
the duplicated `azimuth_deg` alias carries the same compass value). -/
structure OriRecord where
  tilt : ℚ
  azimuth_pvsyst_deg : ℚ
  azimuth_compass_deg : ℚ
deriving DecidableEq, Repr

/-- The record written for a chosen tilt match. -/
def oriRec (t : TiltMatch) : OriRecord :=
  ⟨t.tilt, t.az, pvsyst_azimuth_to_compass t.az⟩

/-- `abs(tilt_m.start() - ori_pos)`. -/
def offsetDist (a b : Nat) : Nat := max a b - min a b

/-- One step of the nearest-tilt selection loop: a strictly smaller
distance replaces the current best (`dist < min_dist`), so the earliest of
equally-near matches is kept. -/
def closerOf (pos : Nat) (best : Option TiltMatch) (t : TiltMatch) :
    Option TiltMatch :=
  match best with
  | none => some t
  | some b => if offsetDist t.pos pos < offsetDist b.pos pos then some t else best

/-- The nearest-tilt selection loop (src/pvsyst_parser.py lines 336-342). -/
def pickClosest (pos : Nat) (ts : List TiltMatch) : Option TiltMatch :=
  ts.foldl (closerOf pos) none

/-- The nearest-neighbor resolution loop (src/pvsyst_parser.py lines
331-354): every orientation match writes its record unconditionally. -/
def resolveLoop1 : List OriMatch → List TiltMatch →
    List (List Char × OriRecord) → List (List Char × OriRecord)
  | [], _, acc => acc
  | o :: os, ts, acc =>
    match pickClosest o.pos ts with
    | none => resolveLoop1 os ts acc
    | some t => resolveLoop1 os ts (insertAssoc o.id (oriRec t) acc)

/-- The fallback window loop (src/pvsyst_parser.py lines 356-397): skips ids
already resolved; the three-pattern window search depends only on the match,
so it is passed in as a function. -/
def resolveLoop2 : List OriMatch → (OriMatch → Option OriRecord) →
    List (List Char × OriRecord) → List (List Char × OriRecord)
  | [], _, acc => acc
  | o :: os, window, acc =>
    if (lookupAssoc o.id acc).isSome then resolveLoop2 os window acc
    else
      match window o with
      | none => resolveLoop2 os window acc
      | some r => resolveLoop2 os window (insertAssoc o.id r acc)

/-- `extract_orientations` (src/pvsyst_parser.py lines 297-400), given the
two regex match lists and the fallback window search. -/
def extract_orientations (oris : List OriMatch) (ts : List TiltMatch)
    (window : OriMatch → Option OriRecord) : List (List Char × OriRecord) :=
  resolveLoop2 oris window (resolveLoop1 oris ts [])

/-! Lemmas about the orientation resolution loops. -/

theorem lookupAssoc_insertAssoc_self {α : Type} (k : List Char) (v : α) :
    ∀ m : List (List Char × α), lookupAssoc k (insertAssoc k v m) = some v := by
  intro m
  induction m with
  | nil => simp [insertAssoc, lookupAssoc]
  | cons p rest ih =>
    obtain ⟨k0, v0⟩ := p
    simp only [insertAssoc]
    by_cases hk : k0 = k
    · simp [lookupAssoc, hk]
    · simp [lookupAssoc, hk, ih]

theorem lookupAssoc_insertAssoc_ne {α : Type} {k k' : List Char} (v : α)
    (hne : k' ≠ k) :
    ∀ m : List (List Char × α),
      lookupAssoc k (insertAssoc k' v m) = lookupAssoc k m := by
  intro m
  induction m with
  | nil => simp [insertAssoc, lookupAssoc, hne]
  | cons p rest ih =>
    obtain ⟨k0, v0⟩ := p
    simp only [insertAssoc]
    by_cases hk : k0 = k'
    · subst hk
      rw [if_pos rfl]
      simp only [lookupAssoc]
      rw [if_neg hne, if_neg hne]
    · rw [if_neg hk]
      simp only [lookupAssoc]
      by_cases hk2 : k0 = k
      · rw [if_pos hk2, if_pos hk2]
      · rw [if_neg hk2, if_neg hk2, ih]

theorem closerOf_ne_none (pos : Nat) (best : Option TiltMatch) (t : TiltMatch) :
    closerOf pos best t ≠ none := by
  cases best with
  | none => simp [closerOf]
  | some b =>
    simp only [closerOf]
    split <;> simp

theorem foldl_closerOf_some (pos : Nat) :
    ∀ (ts : List TiltMatch) (b : TiltMatch),
      ∃ b', ts.foldl (closerOf pos) (some b) = some b' := by
  intro ts
  induction ts with
  | nil => exact fun b => ⟨b, rfl⟩
  | cons t ts ih =>
    intro b
    simp only [List.foldl_cons]
    cases hc : closerOf pos (some b) t with
    | none => exact absurd hc (closerOf_ne_none pos (some b) t)
    | some b'' => exact ih b''

theorem pickClosest_isSome {ts : List TiltMatch} (hne : ts ≠ []) (pos : Nat) :
    ∃ t, pickClosest pos ts = some t := by
  cases ts with
  | nil => exact absurd rfl hne
  | cons t ts =>
    show ∃ b', (t :: ts).foldl (closerOf pos) none = some b'
    simp only [List.foldl_cons]
    have : closerOf pos none t = some t := rfl
    rw [this]
    exact foldl_closerOf_some pos ts t

theorem resolveLoop2_preserves :
    ∀ (os : List OriMatch) (window : OriMatch → Option OriRecord)
      (acc : List (List Char × OriRecord)) (k : List Char) (r : OriRecord),
      lookupAssoc k acc = some r →
      lookupAssoc k (resolveLoop2 os window acc) = some r := by
  intro os
  induction os with
  | nil => intro _ _ _ _ h; exact h
  | cons o os ih =>
    intro window acc k r h
    simp only [resolveLoop2]
    by_cases hs : (lookupAssoc o.id acc).isSome = true
    · rw [if_pos hs]
      exact ih _ _ _ _ h
    · rw [if_neg hs]
      cases hw : window o with
      | none => exact ih _ _ _ _ h
      | some rec =>
        apply ih
        have hne : o.id ≠ k := by
          intro he
          rw [he, h] at hs
          exact hs (by simp)
        rw [lookupAssoc_insertAssoc_ne _ hne]
        exact h

theorem getLast?_cons_ne_none {α : Type} (x : α) (l : List α) :
    (x :: l).getLast? ≠ none := by
  induction l generalizing x with
  | nil => simp
  | cons y ys ih =>
    rw [List.getLast?_cons_cons]
    exact ih y

theorem resolveLoop1_last_wins :
    ∀ (os : List OriMatch) (ts : List TiltMatch)
      (acc : List (List Char × OriRecord)) (k : List Char),
      ts ≠ [] →
      lookupAssoc k (resolveLoop1 os ts acc) =
        (match (os.filter (fun o => o.id = k)).getLast? with
          | some o => (pickClosest o.pos ts).map oriRec
          | none => lookupAssoc k acc) := by
  intro os
  induction os with
  | nil => intro ts acc k _; rfl
  | cons o os ih =>
    intro ts acc k hts
    obtain ⟨t, ht⟩ := pickClosest_isSome hts o.pos
    simp only [resolveLoop1, ht]
    rw [ih ts _ k hts]
    by_cases hk : o.id = k
    · have hfil : (o :: os).filter (fun o => decide (o.id = k)) =
          o :: os.filter (fun o => decide (o.id = k)) := by
        simp [List.filter_cons, hk]
      rw [hfil]
      cases hrest : os.filter (fun o => decide (o.id = k)) with
      | nil =>
        simp only [List.getLast?_nil, List.getLast?_singleton, ht]
        rw [hk, lookupAssoc_insertAssoc_self]
        rfl
      | cons o' rest =>
        rw [List.getLast?_cons_cons]
        cases hlast : (o' :: rest).getLast? with
        | none => exact absurd hlast (getLast?_cons_ne_none o' rest)
        | some a => rfl
    · have hfil : (o :: os).filter (fun o => decide (o.id = k)) =
          os.filter (fun o => decide (o.id = k)) := by
        simp [List.filter_cons, hk]
      rw [hfil]
      cases hrest : os.filter (fun o => decide (o.id = k)) with
      | nil =>
        simp only [List.getLast?_nil]
        rw [lookupAssoc_insertAssoc_ne _ hk]
      | cons o' rest => rfl

/-! Plant totals and the per-inverter monthly allocation
(src/pvsyst_parser.py lines 1546-1566 and 1635-1684). -/

/-- `extract_total_modules` (src/pvsyst_parser.py lines 1546-1566): the
document-wide `Nb. of modules` match if present, else the sum of the
per-array module counts, an absent count contributing `0`. -/
def extract_total_modules (docMatch : Option Nat)
    (arrayModules : List (Option Nat)) : Nat :=
  match docMatch with
  | some n => n
  | none => (arrayModules.map (fun a => a.getD 0)).sum

/-- Python `round(x)` (ndigits 0): round half to even. -/
def roundHE (q : ℚ) : ℤ :=
  if q - ⌊q⌋ < 1 / 2 then ⌊q⌋
  else if q - ⌊q⌋ > 1 / 2 then ⌊q⌋ + 1
  else if Even ⌊q⌋ then ⌊q⌋ else ⌊q⌋ + 1

/-- The per-inverter monthly allocation of `calculate_monthly_production`
(src/pvsyst_parser.py lines 1654-1676): an empty inverter/module mapping
bails out cleanly; otherwise each inverter's share is
`module_count / total_system_modules`, an unguarded division that raises
`ZeroDivisionError` when the total is zero — modelled as `none`. -/
def perInverterMonthly (inverterModules : List (List Char × Nat)) (total : Nat)
    (monthly : List (List Char × ℚ)) :
    Option (List (List Char × List (List Char × ℚ))) :=
  if inverterModules.isEmpty then some []
  else if total = 0 then none
  else
    some (inverterModules.map (fun p =>
      (p.1, monthly.map (fun m => (m.1, ((roundHE (m.2 * p.2 / total) : ℤ) : ℚ))))))

/-! Candidate-block acceptance (src/pvsyst_parser.py lines 907-962). -/

/-- One candidate block produced by the `Array #n` splitting regex: the
block's text and the captured id digits. -/
structure RawBlock where
  text : List Char
  array_id : List Char
deriving DecidableEq, Repr

/-- The block-acceptance loop of `parse_arrays_from_text`
(src/pvsyst_parser.py lines 912-962): a block whose id was already seen is
skipped, then the `Modules\s+\d+\s+string` gate decides whether the block
joins the array set. -/
def acceptBlocks : List RawBlock → List (List Char) → List RawBlock
  | [], _ => []
  | b :: bs, seen =>
    if b.array_id ∈ seen then acceptBlocks bs seen
    else if hasModulesGuard b.text then b :: acceptBlocks bs (b.array_id :: seen)
    else acceptBlocks bs seen

/-! Single-Configuration Inferencer, modelled from the spec. -/

/-- Modelled from the spec: the Single-Configuration Inferencer (spec §4.5)
is code of this repository that is missing from `src/` — `src/app.py`
imports `pvsyst_parser_v3`, which is not in the repository, and
`src/pvsyst_parser.py` has no single-configuration fallback (its only
fallback is the tabular one).  Per the spec, the required inverter count is
`ceil(total_strings / (mppt_per_inverter * strings_per_mppt_max))`. -/
def requiredInverters (total_strings mppt_per_inverter strings_per_mppt_max : Nat) :
    Nat :=
  (total_strings + mppt_per_inverter * strings_per_mppt_max - 1) /
    (mppt_per_inverter * strings_per_mppt_max)

/-- Modelled from the spec: "if the report's stated inverter-unit count
exceeds this requirement, the requirement wins (the report's count is
treated as an upper bound that may include unused or reserve inverters)". -/
def usedInverters (stated total_strings mppt_per_inverter strings_per_mppt_max : Nat) :
    Nat :=
  min stated
    (requiredInverters total_strings mppt_per_inverter strings_per_mppt_max)

theorem relabelGroup_map_ids (g : List Combo) :
    (relabelGroup g).map (fun c => (c.array_id, c.inverter)) =
      (sortCombos g).map (fun c => (c.array_id, c.inverter)) :=
  assignLabels_map_ids 1 (sortCombos g)

/-! The claims. -/

/-- C6: the inverter range-expander is order-preserving and idempotent:
`parse_inverter_range "INV02-05,7,8"` is exactly
`[INV02, INV03, INV04, INV05, INV07, INV08]` (first-appearance order, the
range expanded in place), every output id has the canonical zero-padded
form `INV{n:02d}`, and re-expanding the comma-join of any expansion result
returns the same list. -/
theorem claim_C6_range_expander_idempotent :
    (parse_inverter_range "INV02-05,7,8".data =
      ["INV02".data, "INV03".data, "INV04".data, "INV05".data,
       "INV07".data, "INV08".data]) ∧
    (∀ s : List Char, ∃ ns : List Nat,
      parse_inverter_range s = ns.map fmtInv) ∧
    (∀ s : List Char,
      parse_inverter_range (joinComma (parse_inverter_range s)) =
        parse_inverter_range s) :=
  ⟨by decide, parse_inverter_range_shape, parse_inverter_range_idem⟩

/-- C3 refuted (code bug): on an array header of the documented form
`Array #1 - INV02-05, 7,8 MPPT 1-5`, `_parse_array_block` does not hand the
text between `INV` and `MPPT` to `parse_inverter_range` — its single header
regex expands only the first range and silently drops `, 7,8`, yielding four
ids where the range-expander (whose docstring promises exactly this input)
yields six. -/
theorem claim_C3_header_drops_comma_list :
    headerInverterIds "Array #1 - INV02-05, 7,8 MPPT 1-5".data =
      ["INV02".data, "INV03".data, "INV04".data, "INV05".data] ∧
    parse_inverter_range "INV02-05, 7,8".data =
      ["INV02".data, "INV03".data, "INV04".data, "INV05".data,
       "INV07".data, "INV08".data] ∧
    headerInverterIds "Array #1 - INV02-05, 7,8 MPPT 1-5".data ≠
      parse_inverter_range "INV02-05, 7,8".data :=
  ⟨by decide, by decide, by decide⟩

/-- C1 counterexample: a single endpoint entering the reassignment with the
explicit label `MPPT 3` leaves relabelled `MPPT 1`: an endpoint carrying an
explicit MPPT label does not keep it. -/
theorem claim_C1_counterexample :
    reassignMppts [⟨"1".data, "INV01".data, some "MPPT 3".data⟩] =
      [("INV01".data, [⟨"1".data, "INV01".data, some "MPPT 1".data⟩])] ∧
    some "MPPT 1".data ≠ some "MPPT 3".data :=
  ⟨by decide, by decide⟩

/-- C1 amended: the reassignment relabels every endpoint, explicit labels
included: per inverter, the endpoints are stably sorted by
`(int(array_id), mppt or "")` — numeric array id first, prior label as
tie-break, discovery order preserved among equals — and then labelled
`MPPT 1..k` consecutively, the prior labels surviving only as sort input. -/
theorem claim_C1_amended_all_endpoints_relabelled :
    ∀ (combos : List Combo) (inv : List Char) (g : List Combo),
      (inv, g) ∈ reassignMppts combos →
      ∃ g0, (inv, g0) ∈ groupByInv combos ∧
        (sortCombos g0).Perm g0 ∧
        (sortCombos g0).Pairwise (fun a b => keyLt b a = false) ∧
        g.map (fun c => (c.array_id, c.inverter)) =
          (sortCombos g0).map (fun c => (c.array_id, c.inverter)) ∧
        g.map (fun c => c.mppt) =
          (List.range' 1 g0.length).map (fun j => some (mkLabel j)) := by
  intro combos inv g hg
  obtain ⟨p, hp, he⟩ := List.mem_map.mp hg
  rw [Prod.mk.injEq] at he
  refine ⟨p.2, ?_, sortCombos_perm p.2, sortCombos_pairwise p.2, ?_, ?_⟩
  · rw [← he.1]
    simpa using hp
  · rw [← he.2, relabelGroup_map_ids]
  · rw [← he.2, relabelGroup_map_mppt]

/-- Witness for the amended C1 at a concrete endpoint list. -/
theorem claim_C1_amended_witness :
    ∃ g0, ("INV01".data, g0) ∈
        groupByInv [⟨"1".data, "INV01".data, some "MPPT 3".data⟩] ∧
      (sortCombos g0).Perm g0 ∧
      (sortCombos g0).Pairwise (fun a b => keyLt b a = false) ∧
      ([⟨"1".data, "INV01".data, some "MPPT 1".data⟩] : List Combo).map
          (fun c => (c.array_id, c.inverter)) =
        (sortCombos g0).map (fun c => (c.array_id, c.inverter)) ∧
      ([⟨"1".data, "INV01".data, some "MPPT 1".data⟩] : List Combo).map
          (fun c => c.mppt) =
        (List.range' 1 g0.length).map (fun j => some (mkLabel j)) :=
  claim_C1_amended_all_endpoints_relabelled
    [⟨"1".data, "INV01".data, some "MPPT 3".data⟩] "INV01".data
    [⟨"1".data, "INV01".data, some "MPPT 1".data⟩] (by decide)

/-- C5: after expansion and the final reassignment, no inverter carries two
endpoints with the same MPPT label: the k endpoints of each inverter
receive the pairwise-distinct labels `MPPT 1..k`, whatever mix of explicit
and null labels they carried before. -/
theorem claim_C5_no_duplicate_labels_per_inverter :
    ∀ (combos : List Combo) (inv : List Char) (g : List Combo),
      (inv, g) ∈ reassignMppts combos →
      (g.map (fun c => c.mppt)).Nodup := by
  intro combos inv g hg
  obtain ⟨p, hp, he⟩ := List.mem_map.mp hg
  rw [Prod.mk.injEq] at he
  rw [← he.2, relabelGroup_map_mppt]
  exact label_list_nodup 1 p.2.length

/-- Witness for C5: an inverter entered with one explicit and one null
label; the reassigned labels are distinct. -/
theorem claim_C5_witness :
    (([⟨"1".data, "INV01".data, some "MPPT 1".data⟩,
       ⟨"2".data, "INV01".data, some "MPPT 2".data⟩] : List Combo).map
        (fun c => c.mppt)).Nodup :=
  claim_C5_no_duplicate_labels_per_inverter
    [⟨"2".data, "INV01".data, some "MPPT 2".data⟩,
     ⟨"1".data, "INV01".data, none⟩] "INV01".data
    [⟨"1".data, "INV01".data, some "MPPT 1".data⟩,
     ⟨"2".data, "INV01".data, some "MPPT 2".data⟩] (by decide)

/-- C10: after the final reassignment the endpoints of each inverter carry
exactly the consecutive labels `MPPT 1..k`, so building the
`associations[inv][mppt]` map writes each (inverter, label) key exactly
once: the map has one entry per endpoint, in endpoint order, and no entry
is overwritten during construction. -/
theorem claim_C10_associations_one_entry_per_label :
    ∀ (combos : List Combo) (inv : List Char) (g : List Combo),
      (inv, g) ∈ reassignMppts combos →
      (g.map (fun c => c.mppt) =
        (List.range' 1 g.length).map (fun j => some (mkLabel j))) ∧
      buildAssoc g = g.map (fun c => (c.mppt.getD [], c.array_id)) ∧
      (buildAssoc g).length = g.length := by
  intro combos inv g hg
  obtain ⟨p, hp, he⟩ := List.mem_map.mp hg
  rw [Prod.mk.injEq] at he
  have hgr : g = relabelGroup p.2 := he.2.symm
  have hlen : g.length = p.2.length := by rw [hgr, relabelGroup_length]
  have hmppt : g.map (fun c => c.mppt) =
      (List.range' 1 g.length).map (fun j => some (mkLabel j)) := by
    rw [hgr, relabelGroup_map_mppt, relabelGroup_length]
  have hkeys : g.map (fun c => c.mppt.getD []) =
      (List.range' 1 g.length).map mkLabel := by
    have h1 : g.map (fun c => c.mppt.getD []) =
        (g.map (fun c => c.mppt)).map (fun o => o.getD []) := by
      rw [List.map_map]
      rfl
    rw [h1, hmppt, List.map_map]
    rfl
  have hnodup : (g.map (fun c => c.mppt.getD [])).Nodup := by
    rw [hkeys]
    exact List.Nodup.map mkLabel_injective (List.nodup_range' 1 g.length)
  have hassoc : buildAssoc g = g.map (fun c => (c.mppt.getD [], c.array_id)) := by
    have := buildAssocAux_nodup_keys g [] (by simpa using hnodup)
    simpa [buildAssoc] using this
  refine ⟨hmppt, hassoc, ?_⟩
  rw [hassoc, List.length_map]

/-- Witness for C10 at a concrete endpoint list. -/
theorem claim_C10_witness :
    (([⟨"1".data, "INV02".data, some "MPPT 1".data⟩,
       ⟨"1".data, "INV02".data, some "MPPT 2".data⟩] : List Combo).map
        (fun c => c.mppt) =
      (List.range' 1
        ([⟨"1".data, "INV02".data, some "MPPT 1".data⟩,
          ⟨"1".data, "INV02".data, some "MPPT 2".data⟩] : List Combo).length).map
        (fun j => some (mkLabel j))) ∧
    buildAssoc
        [⟨"1".data, "INV02".data, some "MPPT 1".data⟩,
         ⟨"1".data, "INV02".data, some "MPPT 2".data⟩] =
      ([⟨"1".data, "INV02".data, some "MPPT 1".data⟩,
        ⟨"1".data, "INV02".data, some "MPPT 2".data⟩] : List Combo).map
        (fun c => (c.mppt.getD [], c.array_id)) ∧
    (buildAssoc
        [⟨"1".data, "INV02".data, some "MPPT 1".data⟩,
         ⟨"1".data, "INV02".data, some "MPPT 2".data⟩]).length =
      ([⟨"1".data, "INV02".data, some "MPPT 1".data⟩,
        ⟨"1".data, "INV02".data, some "MPPT 2".data⟩] : List Combo).length :=
  claim_C10_associations_one_entry_per_label
    [⟨"1".data, "INV02".data, some "MPPT 10".data⟩,
     ⟨"1".data, "INV02".data, some "MPPT 2".data⟩] "INV02".data
    [⟨"1".data, "INV02".data, some "MPPT 1".data⟩,
     ⟨"1".data, "INV02".data, some "MPPT 2".data⟩] (by decide)

/-- C4: the default per-array allocation over `n > 0` unique endpoints in
sorted order sums to exactly `strings`, any two per-endpoint counts differ
by at most 1, and the counts are exactly `strings // n` plus one extra for
the first `strings % n` endpoints. -/
theorem claim_C4_even_string_distribution :
    ∀ (eps : List Endpoint) (strings series : Nat), eps ≠ [] →
      (((mpptAllocation eps strings series).map (fun x => x.2.1)).sum =
        strings) ∧
      (∀ a ∈ (mpptAllocation eps strings series).map (fun x => x.2.1),
        ∀ b ∈ (mpptAllocation eps strings series).map (fun x => x.2.1),
          b ≤ a + 1) ∧
      ((mpptAllocation eps strings series).map (fun x => x.2.1) =
        (List.range' 0 eps.length).map
          (fun idx => strings / eps.length +
            if idx < strings % eps.length then 1 else 0)) := by
  intro eps strings series hne
  have hn : 0 < eps.length := List.length_pos.mpr hne
  have hmap : (mpptAllocation eps strings series).map (fun x => x.2.1) =
      (List.range' 0 eps.length).map
        (fun idx => strings / eps.length +
          if idx < strings % eps.length then 1 else 0) := by
    unfold mpptAllocation
    rw [if_pos hn, enumAlloc_map_strings]
  refine ⟨?_, ?_, hmap⟩
  · rw [hmap, sum_base_extra]
    have hmod : strings % eps.length < eps.length := Nat.mod_lt strings hn
    have h1 : min (strings % eps.length) (0 + eps.length) -
        min (strings % eps.length) 0 = strings % eps.length := by omega
    rw [h1]
    exact Nat.div_add_mod strings eps.length
  · intro a ha b hb
    rw [hmap] at ha hb
    obtain ⟨i, _, hi⟩ := List.mem_map.mp ha
    obtain ⟨j, _, hj⟩ := List.mem_map.mp hb
    rw [← hi, ← hj]
    split_ifs <;> omega

/-- Witness for C4: 8 strings over 3 endpoints allocate as 3, 3, 2. -/
theorem claim_C4_witness :
    (((mpptAllocation
        [("INV01".data, "MPPT 1".data), ("INV01".data, "MPPT 2".data),
         ("INV02".data, "MPPT 1".data)] 8 17).map (fun x => x.2.1)).sum = 8) ∧
    (∀ a ∈ (mpptAllocation
        [("INV01".data, "MPPT 1".data), ("INV01".data, "MPPT 2".data),
         ("INV02".data, "MPPT 1".data)] 8 17).map (fun x => x.2.1),
      ∀ b ∈ (mpptAllocation
        [("INV01".data, "MPPT 1".data), ("INV01".data, "MPPT 2".data),
         ("INV02".data, "MPPT 1".data)] 8 17).map (fun x => x.2.1),
        b ≤ a + 1) ∧
    ((mpptAllocation
        [("INV01".data, "MPPT 1".data), ("INV01".data, "MPPT 2".data),
         ("INV02".data, "MPPT 1".data)] 8 17).map (fun x => x.2.1) =
      (List.range' 0 3).map (fun idx => 8 / 3 + if idx < 8 % 3 then 1 else 0)) :=
  claim_C4_even_string_distribution
    [("INV01".data, "MPPT 1".data), ("INV01".data, "MPPT 2".data),
     ("INV02".data, "MPPT 1".data)] 8 17 (by decide)

/-- C7 counterexample: a candidate block mentioning `Array #3` whose body
has no parseable `Modules N string(s) x M` line (it reads `Modules 4
string` with no `x M` clause) nevertheless passes the keep-gate and is
instantiated, refuting the claimed exclusion. -/
theorem claim_C7_counterexample :
    containsSub "Array #3".data
      "Array #3 - INV02 MPPT 1 Modules 4 string Number of PV modules 40units".data =
        true ∧
    searchModulesCfg
      "Array #3 - INV02 MPPT 1 Modules 4 string Number of PV modules 40units".data =
        none ∧
    acceptBlocks
      [⟨"Array #3 - INV02 MPPT 1 Modules 4 string Number of PV modules 40units".data,
        "3".data⟩] [] =
      [⟨"Array #3 - INV02 MPPT 1 Modules 4 string Number of PV modules 40units".data,
        "3".data⟩] :=
  ⟨by decide, by decide, by decide⟩

/-- C7 amended: the actual exclusion criterion is the weaker keep-gate
`Modules \d+ string`: every block in the final array set matches it (so a
block with no such match is excluded), but a full `... x M` clause is not
required for instantiation. -/
theorem claim_C7_amended_guard_without_x :
    ∀ (bs : List RawBlock) (seen : List (List Char)) (b : RawBlock),
      b ∈ acceptBlocks bs seen → hasModulesGuard b.text = true := by
  intro bs
  induction bs with
  | nil =>
    intro seen b h
    simp [acceptBlocks] at h
  | cons b0 rest ih =>
    intro seen b h
    simp only [acceptBlocks] at h
    by_cases h1 : b0.array_id ∈ seen
    · rw [if_pos h1] at h
      exact ih _ _ h
    · rw [if_neg h1] at h
      by_cases h2 : hasModulesGuard b0.text = true
      · rw [if_pos h2] at h
        rcases List.mem_cons.mp h with rfl | h3
        · exact h2
        · exact ih _ _ h3
      · rw [if_neg (by simpa using h2)] at h
        exact ih _ _ h

/-- Witness for the amended C7 at a concrete accepted block. -/
theorem claim_C7_witness :
    hasModulesGuard
      (RawBlock.mk "Array #7 Modules 6 string x 20".data "7".data).text = true :=
  claim_C7_amended_guard_without_x
    [⟨"Array #7 Modules 6 string x 20".data, "7".data⟩] []
    ⟨"Array #7 Modules 6 string x 20".data, "7".data⟩ (by decide)

/-- C8 counterexample: the orientation id `1` matches at offsets 0 and 100;
the nearest tilt match to the first carries tilt 10, the nearest to the
second carries tilt 20.  The nearest-neighbor loop first stores tilt 10 for
id `1` and then OVERWRITES it when processing the second occurrence: the
record finally stored carries tilt 20, not the first resolution's 10. -/
theorem claim_C8_counterexample :
    (lookupAssoc "1".data (extract_orientations
      [⟨"1".data, 0⟩, ⟨"1".data, 100⟩]
      [⟨0, 10, 0⟩, ⟨100, 20, 0⟩]
      (fun _ => none))).map OriRecord.tilt = some 20 ∧
    (some (20 : ℚ) ≠ some (10 : ℚ)) :=
  ⟨rfl, by decide⟩

/-- C8 amended: within the nearest-neighbor loop every occurrence of an id
writes its record unconditionally, so for duplicated ids the LAST
occurrence's resolution wins there; only the fallback window loop preserves
already-resolved ids. -/
theorem claim_C8_amended_last_resolution_wins :
    (∀ (oris : List OriMatch) (ts : List TiltMatch) (k : List Char),
      ts ≠ [] →
      lookupAssoc k (resolveLoop1 oris ts []) =
        (match (oris.filter (fun o => o.id = k)).getLast? with
          | some o => (pickClosest o.pos ts).map oriRec
          | none => none)) ∧
    (∀ (oris : List OriMatch) (window : OriMatch → Option OriRecord)
        (acc : List (List Char × OriRecord)) (k : List Char) (r : OriRecord),
      lookupAssoc k acc = some r →
      lookupAssoc k (resolveLoop2 oris window acc) = some r) := by
  constructor
  · intro oris ts k hts
    rw [resolveLoop1_last_wins oris ts [] k hts]
    cases (oris.filter (fun o => decide (o.id = k))).getLast? <;> rfl
  · exact resolveLoop2_preserves

/-- Witness for the amended C8 at concrete match lists. -/
theorem claim_C8_witness :
    (lookupAssoc "1".data
        (resolveLoop1 [⟨"1".data, 0⟩] [⟨0, 10, 0⟩] []) =
      (match (([⟨"1".data, 0⟩] : List OriMatch).filter
          (fun o => o.id = "1".data)).getLast? with
        | some o => (pickClosest o.pos [⟨0, 10, 0⟩]).map oriRec
        | none => none)) ∧
    lookupAssoc "1".data
        (resolveLoop2 [] (fun _ => none) [("1".data, oriRec ⟨0, 10, 0⟩)]) =
      some (oriRec ⟨0, 10, 0⟩) :=
  ⟨claim_C8_amended_last_resolution_wins.1 [⟨"1".data, 0⟩] [⟨0, 10, 0⟩]
      "1".data (by simp),
   claim_C8_amended_last_resolution_wins.2 [] (fun _ => none)
      [("1".data, oriRec ⟨0, 10, 0⟩)] "1".data (oriRec ⟨0, 10, 0⟩) rfl⟩

/-- C9 refuted (code bug): a report whose only array block declares strings
(`Modules 2 string x 10`) but no module count anywhere produces
`total_system_modules = 0` while the inverter/module mapping is nonempty
(`INV01` with 0 modules); `calculate_monthly_production` then evaluates
`module_count / total_system_modules` unguarded and the pipeline aborts
with `ZeroDivisionError` instead of degrading to a partial result. -/
theorem claim_C9_monthly_allocation_divides_by_zero :
    hasModulesGuard "Array #1 - INV01 MPPT 1 Modules 2 string x 10".data = true ∧
    searchNbModules "Array #1 - INV01 MPPT 1 Modules 2 string x 10".data = none ∧
    searchNumPVModules "Array #1 - INV01 MPPT 1 Modules 2 string x 10".data = none ∧
    extract_total_modules
      (searchNbModules "Array #1 - INV01 MPPT 1 Modules 2 string x 10".data)
      [searchNumPVModules "Array #1 - INV01 MPPT 1 Modules 2 string x 10".data] = 0 ∧
    perInverterMonthly [("INV01".data, 0)]
      (extract_total_modules
        (searchNbModules "Array #1 - INV01 MPPT 1 Modules 2 string x 10".data)
        [searchNumPVModules "Array #1 - INV01 MPPT 1 Modules 2 string x 10".data])
      [("January".data, (34807 : ℚ))] = none :=
  ⟨by decide, by decide, by decide, by decide, by decide⟩

/-- C2 (spec-modelled): `ceil(48 / (6 × 2)) = 4` inverters are required; a
stated count of 5 exceeds the requirement, so 4 are used.  In general the
requirement wins whenever the stated count exceeds it, and
`requiredInverters` is the exact ceiling: `cap × required` covers all the
strings while `cap × (required - 1)` does not. -/
theorem claim_C2_single_config_required_inverters :
    requiredInverters 48 6 2 = 4 ∧
    usedInverters 5 48 6 2 = 4 ∧
    (∀ ts mpi spm stated : Nat,
      requiredInverters ts mpi spm < stated →
      usedInverters stated ts mpi spm = requiredInverters ts mpi spm) ∧
    (∀ ts mpi spm : Nat, 0 < mpi * spm →
      ts ≤ mpi * spm * requiredInverters ts mpi spm ∧
      (0 < ts → mpi * spm * (requiredInverters ts mpi spm - 1) < ts)) := by
  refine ⟨by decide, by decide, ?_, ?_⟩
  · intro ts mpi spm stated h
    exact Nat.min_eq_right (Nat.le_of_lt h)
  · intro ts mpi spm hc
    unfold requiredInverters
    generalize hcg : mpi * spm = c at hc ⊢
    constructor
    · have h1 := Nat.div_add_mod (ts + c - 1) c
      have h2 := Nat.mod_lt (ts + c - 1) hc
      generalize hX : c * ((ts + c - 1) / c) = X at h1 ⊢
      omega
    · intro hts
      have hq1 : 1 ≤ (ts + c - 1) / c := by
        rw [Nat.le_div_iff_mul_le hc]
        omega
      obtain ⟨q, hq⟩ : ∃ q, (ts + c - 1) / c = q + 1 := ⟨(ts + c - 1) / c - 1, by omega⟩
      rw [hq]
      simp only [Nat.add_sub_cancel]
      have h1 := Nat.div_add_mod (ts + c - 1) c
      rw [hq, Nat.mul_succ] at h1
      have h2 := Nat.mod_lt (ts + c - 1) hc
      generalize hX : c * q = X at h1 ⊢
      omega

/-- Witness for C2 at the documented SMA-Core-like configuration. -/
theorem claim_C2_witness :
    usedInverters 5 48 6 2 = requiredInverters 48 6 2 ∧
    48 ≤ 6 * 2 * requiredInverters 48 6 2 ∧
    6 * 2 * (requiredInverters 48 6 2 - 1) < 48 :=
  ⟨claim_C2_single_config_required_inverters.2.2.1 48 6 2 5 (by decide),
   (claim_C2_single_config_required_inverters.2.2.2 48 6 2 (by decide)).1,
   (claim_C2_single_config_required_inverters.2.2.2 48 6 2 (by decide)).2
     (by decide)⟩

end PVsyst
